import Mathlib

/-!
Verification development for the futures/spot volume-analysis toolkit
(`crypto_vat_app/engines/futures_engine.py`).

The PDF-page parser is embedded shallowly: strings are `List Char`,
Python's `re.search` over `PDFParser.FINANCIAL_PATTERN` is modelled by a
small prioritized backtracking engine (`runRE`/`reSearch`) covering exactly
the regex constructs that pattern uses (single-character classes, greedy
`?`/`+`/`*` over character classes, literals, priority alternation,
optional non-capturing groups, numbered capture groups).
-/

namespace CryptoVAT

/-- Capture slots: Python `match.groups()` — `none` for a group that did not
participate in the match. -/
abbrev Caps := List (Option (List Char))

/-- Regex ASTs for the constructs appearing in `FINANCIAL_PATTERN`. -/
inductive RE : Type where
  | chrOne  : (Char → Bool) → RE
  | chrOpt  : (Char → Bool) → RE
  | chrPlus : (Char → Bool) → RE
  | chrStar : (Char → Bool) → RE
  | lit     : List Char → RE
  | seq     : RE → RE → RE
  | alt     : RE → RE → RE
  | opt     : RE → RE
  | group   : Nat → RE → RE

/-- Ways a single-character class can consume one character: at most one. -/
def chrCandidates (p : Char → Bool) : List Char → List (List Char)
  | [] => []
  | c :: rest => if p c then [rest] else []

/-- Remainders after consuming 1..k leading characters satisfying `p`,
longest consumption first (greedy order, as Python's backtracking tries). -/
def plusSplits (p : Char → Bool) : List Char → List (List Char)
  | [] => []
  | c :: rest => if p c then plusSplits p rest ++ [rest] else []

/-- Match a literal string prefix. -/
def litRest : List Char → List Char → Option (List Char)
  | [], s => some s
  | _ :: _, [] => none
  | c :: cs, d :: s => if c = d then litRest cs s else none

/-- All (remainder, captures) results of matching `r` at the front of `s`,
in the priority order Python's backtracking engine would try them:
greedy quantifiers longest-first, alternation left branch first,
optional item present-first. -/
def runRE : RE → List Char → Caps → List (List Char × Caps)
  | .chrOne p, s, g => (chrCandidates p s).map (fun r => (r, g))
  | .chrOpt p, s, g => (chrCandidates p s).map (fun r => (r, g)) ++ [(s, g)]
  | .chrPlus p, s, g => (plusSplits p s).map (fun r => (r, g))
  | .chrStar p, s, g => (plusSplits p s).map (fun r => (r, g)) ++ [(s, g)]
  | .lit l, s, g =>
      match litRest l s with
      | some r => [(r, g)]
      | none => []
  | .seq a b, s, g => (runRE a s g).flatMap (fun x => runRE b x.1 x.2)
  | .alt a b, s, g => runRE a s g ++ runRE b s g
  | .opt a, s, g => runRE a s g ++ [(s, g)]
  | .group i a, s, g =>
      (runRE a s g).map
        (fun x => (x.1, x.2.set i (some (s.take (s.length - x.1.length)))))

/-- First successful match of `r` anchored at the start of `s`, if any;
the pattern has 5 capture groups. -/
def searchAt (r : RE) (s : List Char) : Option Caps :=
  match runRE r s (List.replicate 5 none) with
  | [] => none
  | x :: _ => some x.2

/-- Python `re.search`: leftmost match wins — try each start position in order. -/
def reSearch (r : RE) (s : List Char) : Option Caps :=
  match searchAt r s with
  | some g => some g
  | none =>
    match s with
    | [] => none
    | _ :: rest => reSearch r rest

/-- `\d` (model restricted to ASCII digits). -/
def isDigitCh (c : Char) : Bool := c.isDigit

/-- `\s`. -/
def isSpaceCh (c : Char) : Bool :=
  c = ' ' || c = '\t' || c = '\n' || c = '\x0b' || c = '\x0c' || c = '\r'

/-- `[\d,\.]` / `[\d\.\,]`. -/
def isNumBody (c : Char) : Bool := isDigitCh c || c = ',' || c = '.'

/-- `[kKmMbB]`. -/
def isMagnitude (c : Char) : Bool :=
  c = 'k' || c = 'K' || c = 'm' || c = 'M' || c = 'b' || c = 'B'

/-- `[+-]` / `[+\-]`. -/
def isSign (c : Char) : Bool := c = '+' || c = '-'

/-- The dash-placeholder character class of the source regex. The source
file's bytes for this class decode to the literal characters `-`, U+201A,
U+00C4, U+00EC and U+00EE (the latter four are a double-encoding of what
was presumably once an en dash U+2013 and an em dash U+2014); the class as
compiled by Python therefore contains exactly these five characters and
does NOT contain U+2013 or U+2014. -/
def isDashGlyph (c : Char) : Bool :=
  c = '-' || c = Char.ofNat 0x201A || c = Char.ofNat 0x00C4 ||
  c = Char.ofNat 0x00EC || c = Char.ofNat 0x00EE

/-- `\$?[+-]?[\d,\.]+[kKmMbB]?` — a currency/number token. -/
def numToken : RE :=
  .seq (.chrOpt (fun c => c = '$'))
    (.seq (.chrOpt isSign) (.seq (.chrPlus isNumBody) (.chrOpt isMagnitude)))

/-- `[+\-]?[\d\.\,]+\%?|[-…]|N\/A` — one percentage-or-placeholder token
(alternatives tried left to right). -/
def pctAlt : RE :=
  .alt (.seq (.chrOpt isSign) (.seq (.chrPlus isNumBody) (.chrOpt (fun c => c = '%'))))
    (.alt (.chrOne isDashGlyph) (.lit ['N', '/', 'A']))

/-- `(?:(pct)\s+)?` with capture slot `i`. -/
def optPctGroup (i : Nat) : RE :=
  .opt (.seq (.group i pctAlt) (.chrPlus isSpaceCh))

/-- `\d*\.?\d+` — the trailing VTMR token. -/
def vtmrRE : RE :=
  .seq (.chrStar isDigitCh) (.seq (.chrOpt (fun c => c = '.')) (.chrPlus isDigitCh))

/-- `PDFParser.FINANCIAL_PATTERN` (capture slots 0..4 for Python groups 1..5). -/
def FINANCIAL_PATTERN : RE :=
  .seq (.group 0 numToken) (.seq (.chrPlus isSpaceCh)
    (.seq (.group 1 numToken) (.seq (.chrPlus isSpaceCh)
      (.seq (optPctGroup 2) (.seq (optPctGroup 3) (.group 4 vtmrRE))))))

/-- `match.group(i+1)` as an optional string. -/
def capAt (g : Caps) (i : Nat) : Option (List Char) := (g.get? i).join

/-! ### Python string helpers -/

/-- Substring containment: Python's `needle in hay`. -/
def isSubstring (needle hay : List Char) : Bool :=
  match hay with
  | [] => needle.isEmpty
  | _ :: t => needle.isPrefixOf hay || isSubstring needle t

/-- `str.lower` (ASCII model). -/
def lowerStr (s : List Char) : List Char := s.map Char.toLower

/-- `str.upper` (ASCII model). -/
def upperStr (s : List Char) : List Char := s.map Char.toUpper

/-- `str.isdigit`: nonempty and all digits (ASCII model). -/
def pyIsDigit (s : List Char) : Bool := !s.isEmpty && s.all isDigitCh

/-- `[A-Z0-9]` membership. -/
def isUpperAlnum (c : Char) : Bool := ('A' ≤ c && c ≤ 'Z') || ('0' ≤ c && c ≤ '9')

/-- `re.sub(r'[^A-Z0-9]', '', s.upper())` — the ticker normalizer. -/
def normalizeTicker (s : List Char) : List Char := (upperStr s).filter isUpperAlnum

/-- `.replace('$', '').replace(',', '')` on the market-cap/volume groups. -/
def stripMoney (s : List Char) : List Char := s.filter (fun c => !(c = '$' || c = ','))

/-! ### Model of Python `float()` acceptance and value

Modelled from the spec: the builtin `float(str)` is not part of the
repository's sources; its acceptance grammar is modelled here (optional
surrounding whitespace, optional sign, `inf`/`infinity`/`nan`
case-insensitively, or a decimal mantissa with at least one digit and an
optional well-formed exponent). Underscore digit separators are omitted —
no caller in this development produces them. -/

/-- Strip leading and trailing whitespace. -/
def stripWs (s : List Char) : List Char :=
  ((s.dropWhile isSpaceCh).reverse.dropWhile isSpaceCh).reverse

/-- Drop one optional leading sign. -/
def dropSign : List Char → List Char
  | [] => []
  | c :: r => if isSign c then r else c :: r

/-- Case-insensitive `inf` / `infinity` / `nan`. -/
def isInfNan (s : List Char) : Bool :=
  lowerStr s = ['i','n','f'] || lowerStr s = ['i','n','f','i','n','i','t','y'] ||
    lowerStr s = ['n','a','n']

/-- Mantissa: `digits [ . [digits] ] | . digits`; returns the remainder. -/
def parseMantissa (s : List Char) : Option (List Char) :=
  let d1 := s.takeWhile isDigitCh
  let r1 := s.dropWhile isDigitCh
  if d1.isEmpty then
    match r1 with
    | '.' :: r2 =>
      if (r2.takeWhile isDigitCh).isEmpty then none
      else some (r2.dropWhile isDigitCh)
    | _ => none
  else
    match r1 with
    | '.' :: r2 => some (r2.dropWhile isDigitCh)
    | _ => some r1

/-- Optional exponent part `([eE] [+-]? digits)?`; returns the remainder. -/
def parseExpOpt : List Char → Option (List Char)
  | [] => some []
  | c :: r =>
    if c = 'e' || c = 'E' then
      let r1 := match r with
        | [] => ([] : List Char)
        | s :: r2 => if isSign s then r2 else s :: r2
      if (r1.takeWhile isDigitCh).isEmpty then none
      else some (r1.dropWhile isDigitCh)
    else some (c :: r)

/-- Does `float(s)` succeed (no exception)? -/
def pyFloatAccepts (s : List Char) : Bool :=
  let t := dropSign (stripWs s)
  isInfNan t ||
    (match parseMantissa t with
     | some r =>
       match parseExpOpt r with
       | some [] => true
       | _ => false
     | none => false)

/-- Value of a digit string as a natural number. -/
def digitsVal (ds : List Char) : Nat :=
  ds.foldl (fun acc c => 10 * acc + (c.toNat - '0'.toNat)) 0

/-- Modelled from the spec: the numeric value `float(s)` for the plain
`digits [. digits]` strings produced by the pattern's trailing group
(exact rational value; rounding to binary floating point is abstracted). -/
def pyFloatVal (s : List Char) : ℚ :=
  let i := s.takeWhile isDigitCh
  match s.dropWhile isDigitCh with
  | '.' :: f => (digitsVal i : ℚ) + (digitsVal (f.takeWhile isDigitCh) : ℚ) / (10 ^ (f.takeWhile isDigitCh).length : ℚ)
  | _ => (digitsVal i : ℚ)

/-! ### The page parser -/

/-- One parsed futures entry. The Python dataclass declares
`funding: str = "-"` and `oiss: str = "-"`, but `_parse_page_smart`
passes the raw regex groups for these fields, which are `None` whenever
the optional group did not participate — so the value domain is
`Option (List Char)`. -/
structure TokenData where
  ticker : List Char
  name : List Char
  market_cap : List Char
  volume : List Char
  vtmr : ℚ
  funding : Option (List Char)
  oiss : Option (List Char)
deriving DecidableEq, Repr

/-- One financial 5-tuple `(mc, vol, vtmr, oi_str, fund_str)` as appended
at line 83 of the source. -/
structure FinTuple where
  mc : List Char
  vol : List Char
  vtmr : List Char
  oi : Option (List Char)
  fund : Option (List Char)
deriving DecidableEq, Repr

/-- `PDFParser.IGNORE_KEYWORDS`. -/
def IGNORE_KEYWORDS : List (List Char) :=
  ["page".toList, "coinalyze".toList, "contract".toList, "filter".toList,
   "column".toList, "mkt cap".toList, "vol 24h".toList]

/-- Should a line be dropped by the noise filter? -/
def isIgnored (line : List Char) : Bool :=
  IGNORE_KEYWORDS.any (fun k => isSubstring k (lowerStr line))

/-- The classification loop of `_parse_page_smart` (source lines 68-88):
returns `(financials, raw_text_lines)` in original line order. -/
def classifyLines : List (List Char) → List FinTuple × List (List Char)
  | [] => ([], [])
  | line :: rest =>
    let acc := classifyLines rest
    if isIgnored line then acc
    else
      match reSearch FINANCIAL_PATTERN line with
      | some g =>
        let vt := (capAt g 4).getD []
        if pyFloatAccepts vt then
          (⟨stripMoney ((capAt g 0).getD []), stripMoney ((capAt g 1).getD []),
            vt, capAt g 2, capAt g 3⟩ :: acc.1, acc.2)
        else (acc.1, line :: acc.2)
      | none =>
        if !pyIsDigit line && line.length > 1 then (acc.1, line :: acc.2) else acc

/-- `PDFParser._clean_ticker_strict`. -/
def clean_ticker_strict (text : List Char) : Option (List Char) :=
  if text.length > 15 then none
  else
    let cleaned := normalizeTicker text
    if 2 ≤ cleaned.length ∧ cleaned.length ≤ 12 then some cleaned else none

/-- The token-pair loop of `_parse_page_smart` (source lines 90-115).
The source has two emitting branches — ticker-ticker adjacency (lines
96-103) and the general name-ticker fallback (lines 105-113) — kept
separate here to mirror it. -/
def resolvePairs : List (List Char) → List (List Char × List Char)
  | [] => []
  | [_] => []
  | a :: b :: rest =>
    match clean_ticker_strict a, clean_ticker_strict b with
    | some _, some tb => (a, tb) :: resolvePairs rest
    | none,   some tb => (a, tb) :: resolvePairs rest
    | _,      none    => resolvePairs (b :: rest)

/-- The zip loop of `_parse_page_smart` (source lines 117-127):
`for k in range(min(len(token_pairs), len(financials)))`. -/
def mkToken (p : List Char × List Char) (f : FinTuple) : TokenData :=
  { ticker := p.2, name := p.1, market_cap := f.mc, volume := f.vol,
    vtmr := pyFloatVal f.vtmr, funding := f.fund, oiss := f.oi }

def buildTokens (pairs : List (List Char × List Char)) (fins : List FinTuple) :
    List TokenData :=
  (List.range (min pairs.length fins.length)).filterMap (fun k =>
    match pairs.get? k, fins.get? k with
    | some p, some f => some (mkToken p f)
    | _, _ => none)

/-- `PDFParser._parse_page_smart`. -/
def parse_page_smart (lines : List (List Char)) : List TokenData :=
  let c := classifyLines lines
  buildTokens (resolvePairs c.2) c.1

/-! ### Tabular data and the merging pipeline

Modelled from the spec (and from pandas' documented semantics, pandas not
being part of the repository's sources): a data frame is an ordered list
of column names plus rows of string cells. -/

structure DF where
  cols : List (List Char)
  rows : List (List (List Char))
deriving DecidableEq, Repr

/-- `df.empty`: true when either axis has length zero. -/
def DF.isEmptyDF (df : DF) : Bool := df.rows.isEmpty || df.cols.isEmpty

/-- Index of the first column with the given name. -/
def DF.keyIdx (df : DF) (key : List Char) : Nat :=
  (df.cols.findIdx? (fun c => c = key)).getD 0

/-- Value of a row in the named column. -/
def DF.keyVal (df : DF) (key : List Char) (row : List (List Char)) : List Char :=
  row.getD (df.keyIdx key) []

/-- A Python exception (message only); `Except.error` models an exception
propagating to the caller, `Except.ok` a normal return. -/
abbrev PyErr := List Char

instance {ε α : Type} [DecidableEq ε] [DecidableEq α] : DecidableEq (Except ε α) :=
  fun x y =>
    match x, y with
    | .ok a, .ok b =>
      if h : a = b then isTrue (by rw [h]) else isFalse (fun hc => h (Except.ok.inj hc))
    | .error a, .error b =>
      if h : a = b then isTrue (by rw [h]) else isFalse (fun hc => h (Except.error.inj hc))
    | .ok _, .error _ => isFalse (fun hc => Except.noConfusion hc)
    | .error _, .ok _ => isFalse (fun hc => Except.noConfusion hc)

/-- `PDFParser.extract` post-loop normalization (source line 51). -/
def normalizeRecord (t : TokenData) : TokenData :=
  { t with ticker := normalizeTicker t.ticker }

/-- `PDFParser.extract` (source lines 35-52). Page text extraction is the
function's fallible input: `readResult` is the outcome of
`pypdf.PdfReader(path)` plus per-page `extract_text` splitting — either an
exception or the list of pages, each page its stripped non-empty lines.
The `try`/`except Exception` block converts an exception into an empty
record set; the data-frame construction and ticker re-normalization sit
outside the `try` but are pure. -/
def extract (pypdfAvailable : Bool)
    (readResult : Except PyErr (List (List (List Char)))) :
    Except PyErr (List TokenData) :=
  if !pypdfAvailable then .ok []
  else
    match readResult with
    | .error _ => .ok []
    | .ok pages => .ok ((pages.flatMap parse_page_smart).map normalizeRecord)

/-- The ticker-column search of `load_spot` (source lines 138-143): if no
column is literally named `ticker`, the first column whose name contains
`tick` or `sym` is renamed to `ticker` (`df.rename` renames every column
bearing that name). -/
def renameTickCol (cols : List (List Char)) : List (List Char) :=
  if "ticker".toList ∈ cols then cols
  else
    match cols.find? (fun c => isSubstring "tick".toList c || isSubstring "sym".toList c) with
    | some c => cols.map (fun x => if x = c then "ticker".toList else x)
    | none => cols

/-- The ticker normalization of `load_spot` (source lines 144-145).
Modelled from pandas' semantics for `df['ticker'] = df['ticker'].apply(...)`:
with a single `ticker` label the column's values are mapped; with
duplicated `ticker` labels the selection/assignment raises (an exception
the caller's bare `except:` later converts to an empty frame). -/
def setTickerCol (df : DF) : Except PyErr DF :=
  if "ticker".toList ∈ df.cols then
    if df.cols.count ("ticker".toList) = 1 then
      .ok { df with rows := df.rows.map (fun r =>
        r.set (df.keyIdx ("ticker".toList))
          (normalizeTicker (r.getD (df.keyIdx ("ticker".toList)) []))) }
    else .error ("duplicate ticker column labels".toList)
  else .ok df

/-- The body of `DataProcessor.load_spot` after a successful
`pd.read_html(path)[0]` (source lines 136-146): lowercase the column
names, infer/rename the ticker column, normalize its values; an
exception from the duplicate-label assignment propagates. -/
def load_spot_core (df : DF) : Except PyErr DF :=
  setTickerCol ⟨renameTickCol (df.cols.map lowerStr), df.rows⟩

/-- `DataProcessor.load_spot` (source lines 131-147): the bare `except:`
turns any exception from reading or cleanup into an empty frame. -/
def load_spot (readResult : Except PyErr DF) : Except PyErr DF :=
  match readResult with
  | .error _ => .ok ⟨[], []⟩
  | .ok df =>
    match load_spot_core df with
    | .ok r => .ok r
    | .error _ => .ok ⟨[], []⟩

/-- `pd.merge(left, right, on=key, how='inner', suffixes=(lsfx, rsfx))`:
inner join on `key`; result columns are the left columns then the right
columns minus `key`, with non-key names occurring in both inputs suffixed;
result rows pair each left row (in order) with each matching right row
(in order). -/
def pdMerge (left right : DF) (key lsfx rsfx : List Char) : DF :=
  { cols :=
      left.cols.map (fun c => if c ≠ key && c ∈ right.cols then c ++ lsfx else c) ++
      (right.cols.eraseIdx (right.keyIdx key)).map
        (fun c => if c ≠ key && c ∈ left.cols then c ++ rsfx else c),
    rows :=
      left.rows.flatMap (fun lr =>
        (right.rows.filter (fun rr => right.keyVal key rr = left.keyVal key lr)).map
          (fun rr => lr ++ rr.eraseIdx (right.keyIdx key))) }

/-- The report: user id banner, merged table, fixed legend (the HTML
rendering of source lines 156-161 is abstracted to its content). -/
structure Report where
  userId : List Char
  table : DF
deriving DecidableEq, Repr

/-- `DataProcessor.generate_report` (source lines 149-162). -/
def generate_report (futures_df spot_df : DF) (user_id : List Char) : Option Report :=
  if futures_df.isEmptyDF || spot_df.isEmptyDF then none
  else some ⟨user_id, pdMerge spot_df futures_df "ticker".toList "_spot".toList "_fut".toList⟩

/-- Shape of any string the trailing group `(\d*\.?\d+)` can capture. -/
def floatShape (t : List Char) : Prop :=
  ∃ a b c : List Char, t = a ++ b ++ c ∧ (∀ ch ∈ a, isDigitCh ch = true) ∧
    (b = [] ∨ b = ['.']) ∧ c ≠ [] ∧ (∀ ch ∈ c, isDigitCh ch = true)

/-! ### General lemmas about the regex engine -/

theorem mem_chrCandidates {p : Char → Bool} {s r : List Char}
    (h : r ∈ chrCandidates p s) : ∃ c, s = c :: r ∧ p c = true := by
  cases s with
  | nil => simp [chrCandidates] at h
  | cons a t =>
    by_cases hp : p a
    · simp [chrCandidates, hp] at h
      exact ⟨a, by rw [h], hp⟩
    · simp [chrCandidates, hp] at h

theorem mem_plusSplits {p : Char → Bool} :
    ∀ {s r : List Char}, r ∈ plusSplits p s →
      ∃ t, s = t ++ r ∧ t ≠ [] ∧ ∀ c ∈ t, p c = true := by
  intro s
  induction s with
  | nil => intro r h; simp [plusSplits] at h
  | cons a u ih =>
    intro r h
    by_cases hp : p a
    · rw [plusSplits, if_pos hp] at h
      rcases List.mem_append.1 h with h1 | h2
      · obtain ⟨t, rfl, hne, hall⟩ := ih h1
        refine ⟨a :: t, rfl, by simp, ?_⟩
        intro c hc
        rcases List.mem_cons.1 hc with rfl | hc
        · exact hp
        · exact hall c hc
      · simp only [List.mem_singleton] at h2
        subst h2
        exact ⟨[a], rfl, by simp, by simpa using hp⟩
    · rw [plusSplits, if_neg hp] at h
      simp at h

theorem litRest_append {l : List Char} :
    ∀ {s r : List Char}, litRest l s = some r → s = l ++ r := by
  induction l with
  | nil => intro s r h; simp [litRest] at h; rw [h]; rfl
  | cons c cs ih =>
    intro s r h
    cases s with
    | nil => simp [litRest] at h
    | cons d t =>
      by_cases hcd : c = d
      · rw [litRest, if_pos hcd] at h
        subst hcd
        simpa using ih h
      · rw [litRest, if_neg hcd] at h
        exact absurd h (by simp)

/-- Every result of `runRE` keeps the number of capture slots. -/
theorem runRE_caps_length (re : RE) :
    ∀ {s : List Char} {g : Caps} {x : List Char × Caps},
      x ∈ runRE re s g → x.2.length = g.length := by
  induction re with
  | chrOne p =>
    intro s g x h
    simp only [runRE, List.mem_map] at h
    obtain ⟨r, -, rfl⟩ := h; rfl
  | chrOpt p =>
    intro s g x h
    simp only [runRE, List.mem_append, List.mem_map, List.mem_singleton] at h
    rcases h with ⟨r, -, rfl⟩ | rfl <;> rfl
  | chrPlus p =>
    intro s g x h
    simp only [runRE, List.mem_map] at h
    obtain ⟨r, -, rfl⟩ := h; rfl
  | chrStar p =>
    intro s g x h
    simp only [runRE, List.mem_append, List.mem_map, List.mem_singleton] at h
    rcases h with ⟨r, -, rfl⟩ | rfl <;> rfl
  | lit l =>
    intro s g x h
    simp only [runRE] at h
    cases hl : litRest l s <;> rw [hl] at h <;> simp at h
    rw [h]
  | seq a b iha ihb =>
    intro s g x h
    simp only [runRE] at h
    obtain ⟨m, hm, hx⟩ := List.mem_flatMap.1 h
    rw [ihb hx, iha hm]
  | alt a b iha ihb =>
    intro s g x h
    simp only [runRE, List.mem_append] at h
    rcases h with h | h
    · exact iha h
    · exact ihb h
  | opt a iha =>
    intro s g x h
    simp only [runRE, List.mem_append, List.mem_singleton] at h
    rcases h with h | rfl
    · exact iha h
    · rfl
  | group i a iha =>
    intro s g x h
    simp only [runRE, List.mem_map] at h
    obtain ⟨y, hy, rfl⟩ := h
    simpa using iha hy

theorem mem_runRE_seq {a b : RE} {s : List Char} {g : Caps} {x : List Char × Caps}
    (h : x ∈ runRE (.seq a b) s g) :
    ∃ m, m ∈ runRE a s g ∧ x ∈ runRE b m.1 m.2 := by
  simp only [runRE] at h
  exact List.mem_flatMap.1 h

theorem searchAt_some {r : RE} {s : List Char} {g : Caps} (h : searchAt r s = some g) :
    ∃ x, x ∈ runRE r s (List.replicate 5 none) ∧ g = x.2 := by
  unfold searchAt at h
  cases hrun : runRE r s (List.replicate 5 none) with
  | nil => rw [hrun] at h; exact absurd h (by simp)
  | cons x xs =>
    rw [hrun] at h
    refine ⟨x, hrun ▸ List.mem_cons_self x xs, ?_⟩
    simpa using h.symm

theorem reSearch_some {r : RE} :
    ∀ {s : List Char} {g : Caps}, reSearch r s = some g → ∃ s', searchAt r s' = some g := by
  intro s
  induction s with
  | nil =>
    intro g h
    rw [reSearch] at h
    cases hsa : searchAt r [] <;> rw [hsa] at h
    · simp at h
    · exact ⟨[], by rw [hsa, ← h]⟩
  | cons a t ih =>
    intro g h
    rw [reSearch] at h
    cases hsa : searchAt r (a :: t) <;> rw [hsa] at h
    · exact ih h
    · exact ⟨a :: t, by rw [hsa, ← h]⟩

/-! ### The shape of the trailing capture group -/

theorem vtmr_shape {s : List Char} {g : Caps} {x : List Char × Caps}
    (h : x ∈ runRE vtmrRE s g) :
    ∃ u, s = u ++ x.1 ∧ floatShape u ∧ x.2 = g := by
  rw [vtmrRE] at h
  obtain ⟨m1, hm1, h⟩ := mem_runRE_seq h
  obtain ⟨m2, hm2, h⟩ := mem_runRE_seq h
  -- star over digits
  simp only [runRE, List.mem_append, List.mem_map, List.mem_singleton] at hm1 hm2 h
  obtain ⟨a, haEq, haAll, hm1eq⟩ :
      ∃ a, s = a ++ m1.1 ∧ (∀ ch ∈ a, isDigitCh ch = true) ∧ m1.2 = g := by
    rcases hm1 with ⟨r, hr, rfl⟩ | rfl
    · obtain ⟨t, rfl, -, hall⟩ := mem_plusSplits hr
      exact ⟨t, rfl, hall, rfl⟩
    · exact ⟨[], rfl, by simp, rfl⟩
  obtain ⟨b, hbEq, hbShape, hm2eq⟩ :
      ∃ b, m1.1 = b ++ m2.1 ∧ (b = [] ∨ b = ['.']) ∧ m2.2 = m1.2 := by
    rcases hm2 with ⟨r, hr, rfl⟩ | rfl
    · obtain ⟨c, hc, hpc⟩ := mem_chrCandidates hr
      have hdot : c = '.' := by simpa using hpc
      subst hdot
      exact ⟨['.'], by simpa using hc, Or.inr rfl, rfl⟩
    · exact ⟨[], rfl, Or.inl rfl, rfl⟩
  obtain ⟨c, hcEq, hcNe, hcAll, hxeq⟩ :
      ∃ c, m2.1 = c ++ x.1 ∧ c ≠ [] ∧ (∀ ch ∈ c, isDigitCh ch = true) ∧ x.2 = m2.2 := by
    obtain ⟨r, hr, hx⟩ := h
    obtain ⟨t, ht, hne, hall⟩ := mem_plusSplits hr
    refine ⟨t, ?_, hne, hall, ?_⟩
    · rw [← hx]; exact ht
    · rw [← hx]
  refine ⟨a ++ b ++ c, ?_, ⟨a, b, c, rfl, haAll, hbShape, hcNe, hcAll⟩, ?_⟩
  · rw [haEq, hbEq, hcEq]
    simp [List.append_assoc]
  · rw [hxeq, hm2eq, hm1eq]

theorem group4_vtmr {s : List Char} {g : Caps} {x : List Char × Caps}
    (h : x ∈ runRE (.group 4 vtmrRE) s g) :
    ∃ t, x.2 = g.set 4 (some t) ∧ floatShape t := by
  simp only [runRE, List.mem_map] at h
  obtain ⟨y, hy, rfl⟩ := h
  obtain ⟨u, rfl, hshape, hcaps⟩ := vtmr_shape hy
  refine ⟨u, ?_, hshape⟩
  have hlen : (u ++ y.1).length - y.1.length = u.length := by
    simp
  rw [hlen, List.take_left]
  simpa using congrArg (fun z => z.set 4 (some u)) hcaps

/-- Any result of the full pattern goes through the trailing capture group
as its last step, with the capture-slot count preserved up to that point. -/
theorem financial_last_step {s : List Char} {g0 : Caps} {x : List Char × Caps}
    (h : x ∈ runRE FINANCIAL_PATTERN s g0) :
    ∃ (s6 : List Char) (g6 : Caps), g6.length = g0.length ∧
      x ∈ runRE (.group 4 vtmrRE) s6 g6 := by
  rw [FINANCIAL_PATTERN] at h
  obtain ⟨m1, hm1, h⟩ := mem_runRE_seq h
  obtain ⟨m2, hm2, h⟩ := mem_runRE_seq h
  obtain ⟨m3, hm3, h⟩ := mem_runRE_seq h
  obtain ⟨m4, hm4, h⟩ := mem_runRE_seq h
  obtain ⟨m5, hm5, h⟩ := mem_runRE_seq h
  obtain ⟨m6, hm6, h⟩ := mem_runRE_seq h
  refine ⟨m6.1, m6.2, ?_, h⟩
  rw [runRE_caps_length _ hm6, runRE_caps_length _ hm5, runRE_caps_length _ hm4,
    runRE_caps_length _ hm3, runRE_caps_length _ hm2, runRE_caps_length _ hm1]

/-! ### Accepted shapes parse as floats -/

theorem dropWhile_eq_self_of_all {α} {p : α → Bool} {t : List α}
    (h : ∀ c ∈ t, p c = false) : t.dropWhile p = t := by
  cases t with
  | nil => rfl
  | cons a u => simp [List.dropWhile, h a (List.mem_cons_self a u)]

theorem takeWhile_append_of_all {α} {p : α → Bool} :
    ∀ {a r : List α}, (∀ x ∈ a, p x = true) → (a ++ r).takeWhile p = a ++ r.takeWhile p := by
  intro a
  induction a with
  | nil => intro r _; rfl
  | cons y u ih =>
    intro r h
    have hy : p y = true := h y (List.mem_cons_self y u)
    simp only [List.cons_append, List.takeWhile_cons, hy, if_true]
    rw [ih (fun x hx => h x (List.mem_cons_of_mem y hx))]

theorem dropWhile_append_of_all {α} {p : α → Bool} :
    ∀ {a r : List α}, (∀ x ∈ a, p x = true) → (a ++ r).dropWhile p = r.dropWhile p := by
  intro a
  induction a with
  | nil => intro r _; rfl
  | cons y u ih =>
    intro r h
    have hy : p y = true := h y (List.mem_cons_self y u)
    simp only [List.cons_append, List.dropWhile_cons, hy, if_true]
    exact ih (fun x hx => h x (List.mem_cons_of_mem y hx))

theorem takeWhile_eq_self_of_all {α} {p : α → Bool} {t : List α}
    (h : ∀ c ∈ t, p c = true) : t.takeWhile p = t := by
  have := takeWhile_append_of_all (r := ([] : List α)) h
  simpa using this

theorem digit_not_space {c : Char} (h : isDigitCh c = true) : isSpaceCh c = false := by
  by_contra hs
  have hs' : isSpaceCh c = true := by simpa using hs
  simp only [isSpaceCh, Bool.or_eq_true, decide_eq_true_eq] at hs'
  rcases hs' with ((((h1 | h1) | h1) | h1) | h1) | h1 <;> subst h1 <;>
    exact absurd h (by decide)

theorem digit_not_sign {c : Char} (h : isDigitCh c = true) : isSign c = false := by
  by_contra hs
  have hs' : isSign c = true := by simpa using hs
  simp only [isSign, Bool.or_eq_true, decide_eq_true_eq] at hs'
  rcases hs' with h1 | h1 <;> subst h1 <;> exact absurd h (by decide)

theorem digit_not_dot {c : Char} (h : isDigitCh c = true) : c ≠ '.' := by
  intro h1; subst h1; exact absurd h (by decide)

theorem floatShape_accepts {t : List Char} (h : floatShape t) : pyFloatAccepts t = true := by
  obtain ⟨a, b, c, rfl, ha, hb, hcne, hc⟩ := h
  have hmem : ∀ x ∈ a ++ b ++ c, isDigitCh x = true ∨ x = '.' := by
    intro x hx
    rcases List.mem_append.1 hx with hx | hx
    · rcases List.mem_append.1 hx with hx | hx
      · exact Or.inl (ha x hx)
      · rcases hb with rfl | rfl
        · simp at hx
        · simp only [List.mem_singleton] at hx; exact Or.inr hx
    · exact Or.inl (hc x hx)
  have hnospace : ∀ x ∈ a ++ b ++ c, isSpaceCh x = false := by
    intro x hx
    rcases hmem x hx with hd | rfl
    · exact digit_not_space hd
    · decide
  have hnosign : ∀ x ∈ a ++ b ++ c, isSign x = false := by
    intro x hx
    rcases hmem x hx with hd | rfl
    · exact digit_not_sign hd
    · decide
  have hstrip : stripWs (a ++ b ++ c) = a ++ b ++ c := by
    rw [stripWs, dropWhile_eq_self_of_all hnospace,
      dropWhile_eq_self_of_all (by intro x hx; exact hnospace x (List.mem_reverse.1 hx)),
      List.reverse_reverse]
  have hsign : dropSign (a ++ b ++ c) = a ++ b ++ c := by
    cases hco : a ++ b ++ c with
    | nil =>
      exfalso
      rcases List.append_eq_nil.1 hco with ⟨-, hc0⟩
      exact hcne hc0
    | cons y u =>
      have hy : isSign y = false := by
        apply hnosign; rw [hco]; exact List.mem_cons_self y u
      rw [dropSign, hy]
      simp
  have hmant : parseMantissa (a ++ b ++ c) = some [] := by
    rcases hb with rfl | rfl
    · -- no dot: a ++ c is all digits
      have hall : ∀ x ∈ a ++ ([] : List Char) ++ c, isDigitCh x = true := by
        intro x hx
        rcases hmem x hx with hd | rfl
        · exact hd
        · exfalso
          rcases List.mem_append.1 hx with hx | hx
          · rcases List.mem_append.1 hx with hx | hx
            · exact digit_not_dot (ha _ hx) rfl
            · simp at hx
          · exact digit_not_dot (hc _ hx) rfl
      rw [parseMantissa]
      rw [takeWhile_eq_self_of_all hall]
      have hdrop : (a ++ ([] : List Char) ++ c).dropWhile isDigitCh = [] := by
        have := dropWhile_append_of_all (r := ([] : List Char))
          (a := a ++ ([] : List Char) ++ c) (by simpa using hall)
        simpa using this
      rw [hdrop]
      have hne : (a ++ ([] : List Char) ++ c).isEmpty = false := by
        cases hh : a ++ ([] : List Char) ++ c with
        | nil =>
          exfalso
          rcases List.append_eq_nil.1 hh with ⟨-, hc0⟩
          exact hcne hc0
        | cons y u => rfl
      simp [hne]
      exact fun _ => hcne
    · -- one dot between a and c
      have hcall : c.takeWhile isDigitCh = c := takeWhile_eq_self_of_all hc
      have hcdrop : c.dropWhile isDigitCh = [] := by
        have := dropWhile_append_of_all (r := ([] : List Char)) (a := c) hc
        simpa using this
      have hdotd : isDigitCh '.' = false := by decide
      have htake : (a ++ ['.'] ++ c).takeWhile isDigitCh = a := by
        rw [List.append_assoc, takeWhile_append_of_all ha]
        simp [List.takeWhile_cons, hdotd]
      have hdrop : (a ++ ['.'] ++ c).dropWhile isDigitCh = '.' :: c := by
        rw [List.append_assoc, dropWhile_append_of_all ha]
        simp [List.dropWhile_cons, hdotd]
      rw [parseMantissa, htake, hdrop]
      cases a with
      | nil => simp [hcall, hcdrop, List.isEmpty_iff, hcne]
      | cons y u => simp [hcdrop]
  rw [pyFloatAccepts, hstrip, hsign, hmant]
  simp [parseExpOpt]

/-! ### Lemmas about the page aggregation -/

theorem buildTokens_eq_zipWith :
    ∀ pairs fins, buildTokens pairs fins = List.zipWith mkToken pairs fins := by
  intro pairs
  induction pairs with
  | nil => intro fins; simp [buildTokens]
  | cons p ps ih =>
    intro fins
    cases fins with
    | nil => simp [buildTokens]
    | cons f fs =>
      show (List.range (min (ps.length + 1) (fs.length + 1))).filterMap _ = _
      rw [Nat.succ_min_succ, List.range_succ_eq_map]
      simp only [List.filterMap_cons, List.filterMap_map]
      simp only [List.get?_cons_zero, List.get?_cons_succ]
      rw [List.zipWith_cons_cons, ← ih fs]
      rfl

theorem zip_map_eq_zipWith {α β γ} (f : α → β → γ) :
    ∀ (l1 : List α) (l2 : List β),
      (l1.zip l2).map (fun x => f x.1 x.2) = List.zipWith f l1 l2 := by
  intro l1
  induction l1 with
  | nil => intro l2; rfl
  | cons a t ih =>
    intro l2
    cases l2 with
    | nil => rfl
    | cons b u => simp [ih]

/-! ### Claims -/

/-- C8: `_clean_ticker_strict` accepts a candidate exactly when its raw
length is at most 15 and the uppercase alphanumeric normalization has
length between 2 and 12; `"A"` is rejected, `"AB"` accepted, a 12-char
alphanumeric string accepted, a 13-char one rejected. -/
theorem C8_strict_ticker_boundary :
    (∀ s : List Char, (clean_ticker_strict s).isSome ↔
      (s.length ≤ 15 ∧ 2 ≤ (normalizeTicker s).length ∧ (normalizeTicker s).length ≤ 12)) ∧
    clean_ticker_strict ("A".toList) = none ∧
    clean_ticker_strict ("AB".toList) = some ("AB".toList) ∧
    clean_ticker_strict ("ABCDEFGH1JKL".toList) = some ("ABCDEFGH1JKL".toList) ∧
    clean_ticker_strict ("ABCDEFGH1JKLM".toList) = none := by
  refine ⟨fun s => ?_, by decide, by decide, by decide, by decide⟩
  unfold clean_ticker_strict
  split_ifs <;> simp_all

/-- C4: the token-pair resolver yields exactly
`[("BTC","BTC"), ("Bitcoin","ETH")]` on `["BTC","BTC","Bitcoin","ETH"]`,
and in general emits `(line[i], normalized(line[i+1]))` advancing by 2
whenever `line[i+1]` validates as a strict ticker, advancing by 1
otherwise. -/
theorem C4_token_pair_resolver :
    resolvePairs ["BTC".toList, "BTC".toList, "Bitcoin".toList, "ETH".toList] =
      [("BTC".toList, "BTC".toList), ("Bitcoin".toList, "ETH".toList)] ∧
    (∀ a b rest tb, clean_ticker_strict b = some tb →
      resolvePairs (a :: b :: rest) = (a, tb) :: resolvePairs rest) ∧
    (∀ a b rest, clean_ticker_strict b = none →
      resolvePairs (a :: b :: rest) = resolvePairs (b :: rest)) ∧
    (∀ a, resolvePairs [a] = []) ∧
    resolvePairs ([] : List (List Char)) = [] := by
  refine ⟨by decide, ?_, ?_, fun a => rfl, rfl⟩
  · intro a b rest tb h
    cases hca : clean_ticker_strict a <;> simp [resolvePairs, hca, h]
  · intro a b rest h
    cases hca : clean_ticker_strict a <;> simp [resolvePairs, hca, h]

/-- Witness for C4 at a concrete input. -/
theorem C4_token_pair_resolver_witness :
    resolvePairs ["Solana".toList, "SOL".toList] =
      [("Solana".toList, "SOL".toList)] := by
  have h := C4_token_pair_resolver.2.1 ("Solana".toList) ("SOL".toList) []
    ("SOL".toList) (by decide)
  simpa using h

/-- C5: the aggregator builds exactly `min(pairs, financials)` records by
positional zipping from index 0; three pairs and two financial tuples
yield two records built from the first two pairs. -/
theorem C5_truncation_zip :
    (∀ pairs fins, buildTokens pairs fins = (pairs.zip fins).map (fun x => mkToken x.1 x.2)) ∧
    (∀ pairs fins, (buildTokens pairs fins).length = min pairs.length fins.length) ∧
    (∀ lines, (parse_page_smart lines).length =
      min (resolvePairs (classifyLines lines).2).length (classifyLines lines).1.length) ∧
    (∀ p1 p2 p3 f1 f2, buildTokens [p1, p2, p3] [f1, f2] = [mkToken p1 f1, mkToken p2 f2]) := by
  refine ⟨?_, ?_, ?_, ?_⟩
  · intro pairs fins
    rw [buildTokens_eq_zipWith, zip_map_eq_zipWith]
  · intro pairs fins
    rw [buildTokens_eq_zipWith, List.length_zipWith]
  · intro lines
    show (buildTokens _ _).length = _
    rw [buildTokens_eq_zipWith, List.length_zipWith]
  · intro p1 p2 p3 f1 f2
    rw [buildTokens_eq_zipWith]
    rfl

/-- C7: the PDF extraction and the spot-table loader return a value for
every outcome of their fallible read, never an exception. -/
theorem C7_never_raises :
    (∀ (b : Bool) (r : Except PyErr (List (List (List Char)))),
        ∃ ts, extract b r = .ok ts) ∧
    (∀ r : Except PyErr DF, ∃ df, load_spot r = .ok df) := by
  constructor
  · intro b r
    cases b <;> cases r <;> exact ⟨_, rfl⟩
  · intro r
    cases r with
    | error e => exact ⟨_, rfl⟩
    | ok df =>
      cases h : load_spot_core df with
      | ok v => exact ⟨v, by simp [load_spot, h]⟩
      | error e => exact ⟨⟨[], []⟩, by simp [load_spot, h]⟩

/-- C10: whenever `FINANCIAL_PATTERN` matches a line, the trailing capture
group holds a string and `float()` accepts it, so the reclassification
fallback for a float-parse failure is unreachable. -/
theorem C10_vtmr_always_parses :
    ∀ (line : List Char) (g : Caps),
      reSearch FINANCIAL_PATTERN line = some g →
      ∃ v, capAt g 4 = some v ∧ pyFloatAccepts v = true := by
  intro line g h
  obtain ⟨s', hat⟩ := reSearch_some h
  obtain ⟨x, hx, hg⟩ := searchAt_some hat
  obtain ⟨s6, g6, hlen, hx6⟩ := financial_last_step hx
  obtain ⟨t, hset, hshape⟩ := group4_vtmr hx6
  refine ⟨t, ?_, floatShape_accepts hshape⟩
  rw [hg, hset, capAt]
  have h4 : 4 < g6.length := by
    rw [hlen]; simp
  rw [List.get?_eq_getElem?, List.getElem?_set_eq_of_lt _ h4]
  rfl

/-- Witness for C10 at a concrete line. -/
theorem C10_vtmr_always_parses_witness :
    ∃ v, capAt [some ("9.9M".toList), some ("1K".toList), none, none,
        some ("7.5".toList)] 4 = some v ∧ pyFloatAccepts v = true :=
  C10_vtmr_always_parses ("9.9M 1K 7.5".toList) _ (by decide)

theorem pyFloatVal_087 : pyFloatVal ("0.87".toList) = 87 / 100 := by
  have h1 : List.takeWhile isDigitCh ("0.87".toList) = ['0'] := by decide
  have h2 : List.dropWhile isDigitCh ("0.87".toList) = '.' :: ['8', '7'] := by decide
  have h3 : List.takeWhile isDigitCh ['8', '7'] = ['8', '7'] := by decide
  have h4 : digitsVal ['0'] = 0 := by decide
  have h5 : digitsVal ['8', '7'] = 87 := by decide
  rw [pyFloatVal]
  rw [h2]
  simp only [h1, h3, h4, h5]
  norm_num

/-- The single-page evaluation used by C1, kept in string-level pieces so
that kernel evaluation never has to normalize a rational number. -/
theorem parse_page_C1_input :
    parse_page_smart ["Bitcoin".toList, "BTC".toList, "1.2M 500K 0.87".toList] =
      [{ ticker := "BTC".toList, name := "Bitcoin".toList, market_cap := "1.2M".toList,
         volume := "500K".toList, vtmr := pyFloatVal ("0.87".toList),
         funding := none, oiss := none }] := by
  have h1 : classifyLines ["Bitcoin".toList, "BTC".toList, "1.2M 500K 0.87".toList] =
      ([⟨"1.2M".toList, "500K".toList, "0.87".toList, none, none⟩],
       ["Bitcoin".toList, "BTC".toList]) := by decide
  have h2 : resolvePairs ["Bitcoin".toList, "BTC".toList] =
      [("Bitcoin".toList, "BTC".toList)] := by decide
  show buildTokens (resolvePairs (classifyLines _).2) (classifyLines _).1 = _
  rw [h1]
  show buildTokens (resolvePairs ["Bitcoin".toList, "BTC".toList]) _ = _
  rw [h2, buildTokens_eq_zipWith]
  rfl

/-- C1 (divergence witness): on a financial line with both optional groups
absent, the record's `funding` and `oiss` fields hold `None`, not the
dataclass default `"-"` — the parser passes the raw `None` groups through. -/
theorem C1_absent_groups_give_none :
    parse_page_smart ["Bitcoin".toList, "BTC".toList, "1.2M 500K 0.87".toList] =
      [{ ticker := "BTC".toList, name := "Bitcoin".toList, market_cap := "1.2M".toList,
         volume := "500K".toList, vtmr := pyFloatVal ("0.87".toList),
         funding := none, oiss := none }] ∧
    pyFloatVal ("0.87".toList) = 87 / 100 ∧
    (parse_page_smart ["Bitcoin".toList, "BTC".toList, "1.2M 500K 0.87".toList]).map
        (fun t => t.funding) ≠ [some ("-".toList)] := by
  refine ⟨parse_page_C1_input, pyFloatVal_087, ?_⟩
  rw [parse_page_C1_input]
  decide

/-- C2: a line is financial exactly when the pattern matches and the
trailing token parses as a float; `"1.2M 500K - - 0.87"` yields the tuple
`("1.2M", "500K", "0.87", "-", "-")` and `"1.2M 500K - - N/A"` is not
financial (it falls through to the label lines). -/
theorem C2_financial_classification :
    (∀ line rest g, isIgnored line = false →
      reSearch FINANCIAL_PATTERN line = some g →
      pyFloatAccepts ((capAt g 4).getD []) = true →
      classifyLines (line :: rest) =
        (⟨stripMoney ((capAt g 0).getD []), stripMoney ((capAt g 1).getD []),
          (capAt g 4).getD [], capAt g 2, capAt g 3⟩ :: (classifyLines rest).1,
         (classifyLines rest).2)) ∧
    (∀ line rest g, isIgnored line = false →
      reSearch FINANCIAL_PATTERN line = some g →
      pyFloatAccepts ((capAt g 4).getD []) = false →
      classifyLines (line :: rest) =
        ((classifyLines rest).1, line :: (classifyLines rest).2)) ∧
    (∀ line rest, isIgnored line = false →
      reSearch FINANCIAL_PATTERN line = none →
      (classifyLines (line :: rest)).1 = (classifyLines rest).1) ∧
    classifyLines ["1.2M 500K - - 0.87".toList] =
      ([⟨"1.2M".toList, "500K".toList, "0.87".toList, some ("-".toList), some ("-".toList)⟩],
        []) ∧
    pyFloatVal ("0.87".toList) = 87 / 100 ∧
    classifyLines ["1.2M 500K - - N/A".toList] = ([], ["1.2M 500K - - N/A".toList]) ∧
    reSearch FINANCIAL_PATTERN ("1.2M 500K - - N/A".toList) = none := by
  refine ⟨?_, ?_, ?_, by decide, pyFloatVal_087, by decide, by decide⟩
  · intro line rest g h1 h2 h3
    simp [classifyLines, h1, h2, h3]
  · intro line rest g h1 h2 h3
    simp [classifyLines, h1, h2, h3]
  · intro line rest h1 h2
    by_cases hd : !pyIsDigit line && line.length > 1 <;>
      simp [classifyLines, h1, h2, hd]

/-- Witness for C2 at a concrete line. -/
theorem C2_financial_classification_witness :
    classifyLines ["9.9M 1K 7.5".toList] =
      ([⟨"9.9M".toList, "1K".toList, "7.5".toList, none, none⟩], []) := by
  have h := C2_financial_classification.1 ("9.9M 1K 7.5".toList) []
    [some ("9.9M".toList), some ("1K".toList), none, none, some ("7.5".toList)]
    (by decide) (by decide) (by decide)
  rw [h]; decide

/-- C3 (divergence witness): the dash character class of the compiled
pattern contains mojibake characters, not the en dash U+2013 or the
em dash U+2014, so a line carrying a real em dash placeholder does not
match and is not classified financial; the plain dash, `N/A` and signed
percentages are accepted. -/
theorem C3_dash_glyphs_not_matched :
    reSearch FINANCIAL_PATTERN
      ("1.2M 500K ".toList ++ [Char.ofNat 0x2014] ++ " N/A 0.87".toList) = none ∧
    reSearch FINANCIAL_PATTERN
      ("1.2M 500K ".toList ++ [Char.ofNat 0x2013] ++ " N/A 0.87".toList) = none ∧
    (classifyLines [("1.2M 500K ".toList ++ [Char.ofNat 0x2014] ++ " N/A 0.87".toList)]).1
      = [] ∧
    reSearch FINANCIAL_PATTERN ("1.2M 500K - N/A 0.87".toList) =
      some [some ("1.2M".toList), some ("500K".toList), some ("-".toList),
        some ("N/A".toList), some ("0.87".toList)] ∧
    reSearch FINANCIAL_PATTERN ("1.2M 500K -5.1% N/A 0.87".toList) =
      some [some ("1.2M".toList), some ("500K".toList), some ("-5.1%".toList),
        some ("N/A".toList), some ("0.87".toList)] := by
  exact ⟨by decide, by decide, by decide, by decide, by decide⟩

/-- C6: no report when either frame is empty; otherwise the report is the
inner join of spot and futures on `ticker` with source suffixes; futures
`{BTC, ETH}` joined with spot `{BTC, SOL}` gives exactly the `BTC` row. -/
theorem C6_report_inner_join :
    (∀ (f s : DF) (u : List Char), f.rows = [] ∨ s.rows = [] →
      generate_report f s u = none) ∧
    (∀ (f s : DF) (u : List Char), f.isEmptyDF = false → s.isEmptyDF = false →
      generate_report f s u =
        some ⟨u, pdMerge s f ("ticker".toList) ("_spot".toList) ("_fut".toList)⟩) ∧
    (∀ (l r : DF) key lsfx rsfx row,
      row ∈ (pdMerge l r key lsfx rsfx).rows ↔
        ∃ lr ∈ l.rows, ∃ rr ∈ r.rows, r.keyVal key rr = l.keyVal key lr ∧
          row = lr ++ rr.eraseIdx (r.keyIdx key)) ∧
    generate_report
      ⟨["ticker".toList, "vtmr".toList],
        [["BTC".toList, "1".toList], ["ETH".toList, "2".toList]]⟩
      ⟨["ticker".toList, "price".toList],
        [["BTC".toList, "9".toList], ["SOL".toList, "3".toList]]⟩
      ("u1".toList) =
      some ⟨"u1".toList, ⟨["ticker".toList, "price".toList, "vtmr".toList],
        [["BTC".toList, "9".toList, "1".toList]]⟩⟩ := by
  refine ⟨?_, ?_, ?_, by decide⟩
  · intro f s u h
    rcases h with h | h <;> simp [generate_report, DF.isEmptyDF, h]
  · intro f s u h1 h2
    simp [generate_report, h1, h2]
  · intro l r key lsfx rsfx row
    simp only [pdMerge, List.mem_flatMap, List.mem_map, List.mem_filter]
    constructor
    · rintro ⟨lr, hlr, rr, ⟨hrr, hkey⟩, rfl⟩
      exact ⟨lr, hlr, rr, hrr, by simpa using hkey, rfl⟩
    · rintro ⟨lr, hlr, rr, hrr, hkey, rfl⟩
      exact ⟨lr, hlr, rr, ⟨hrr, by simpa using hkey⟩, rfl⟩

/-- Witness for C6 at concrete frames. -/
theorem C6_report_inner_join_witness :
    generate_report ⟨["ticker".toList], []⟩ ⟨["ticker".toList], [["BTC".toList]]⟩
      ("u".toList) = none :=
  C6_report_inner_join.1 _ _ _ (Or.inl rfl)

/-! ### Lemmas for the ticker-column inference -/

theorem find?_decomp {α} {p : α → Bool} :
    ∀ {l : List α} {c}, l.find? p = some c →
      ∃ l1 l2, l = l1 ++ c :: l2 ∧ (∀ x ∈ l1, p x = false) ∧ p c = true := by
  intro l
  induction l with
  | nil => intro c h; simp at h
  | cons a t ih =>
    intro c h
    by_cases hp : p a
    · rw [List.find?_cons_of_pos _ hp] at h
      obtain rfl : a = c := by simpa using h
      exact ⟨[], t, rfl, by simp, hp⟩
    · rw [List.find?_cons_of_neg _ hp] at h
      obtain ⟨l1, l2, rfl, h1, h2⟩ := ih h
      refine ⟨a :: l1, l2, rfl, ?_, h2⟩
      intro x hx
      rcases List.mem_cons.1 hx with rfl | hx
      · simpa using hp
      · exact h1 x hx

theorem findIdx?_prefix {α} {p : α → Bool} :
    ∀ (l1 : List α) (y : α) (l2 : List α) (i : Nat),
      (∀ x ∈ l1, p x = false) → p y = true →
      List.findIdx? p (l1 ++ y :: l2) i = some (l1.length + i) := by
  intro l1
  induction l1 with
  | nil =>
    intro y l2 i _ hy
    simp [List.findIdx?, hy]
  | cons a t ih =>
    intro y l2 i h hy
    have ha : p a = false := h a (List.mem_cons_self a t)
    rw [List.cons_append, List.findIdx?, ha]
    simp only [Bool.false_eq_true, if_false]
    rw [ih y l2 (i + 1) (fun x hx => h x (List.mem_cons_of_mem a hx)) hy]
    congr 1
    simp only [List.length_cons]
    omega

/-- Counterexample for C9 as stated: on a parsed spot table whose
lowercased column names are `["sym.", "sym."]` (e.g. columns `"Sym."` and
`"SYM."`) with no literal `ticker` column, `df.rename` renames BOTH
matching columns, the duplicate-label ticker assignment then raises, and
the bare `except:` yields the empty frame — not a frame in which the
first matching column was renamed and its values normalized. -/
theorem C9_duplicate_column_counterexample :
    "ticker".toList ∉ (["Sym.".toList, "SYM.".toList].map lowerStr) ∧
    (["Sym.".toList, "SYM.".toList].map lowerStr).find?
      (fun x => isSubstring ("tick".toList) x || isSubstring ("sym".toList) x) =
      some ("sym.".toList) ∧
    renameTickCol (["Sym.".toList, "SYM.".toList].map lowerStr) =
      ["ticker".toList, "ticker".toList] ∧
    load_spot (.ok ⟨["Sym.".toList, "SYM.".toList], [["btc-usd".toList, "5".toList]]⟩) =
      .ok ⟨[], []⟩ ∧
    load_spot (.ok ⟨["Sym.".toList, "SYM.".toList], [["btc-usd".toList, "5".toList]]⟩) ≠
      .ok ⟨["ticker".toList, "sym.".toList], [["BTCUSD".toList, "5".toList]]⟩ := by
  exact ⟨by decide, by decide, by decide, by decide, by decide⟩

/-- C9 (amended): on a frame whose lowercased column names lack a literal
`ticker` and in which the first column name containing `tick` or `sym`
occurs exactly once, that column is renamed to `ticker` in place, other
columns are untouched, and every value of that column is normalized;
concretely a `"Sym."` column is renamed and its values normalized. (With
the matched name duplicated the program instead degrades to the empty
frame — see the counterexample.) -/
theorem C9_ticker_column_inference :
    (∀ (df : DF) (c : List Char),
      "ticker".toList ∉ df.cols.map lowerStr →
      (df.cols.map lowerStr).find?
        (fun x => isSubstring ("tick".toList) x || isSubstring ("sym".toList) x) = some c →
      (df.cols.map lowerStr).count c = 1 →
      ∃ l1 l2, df.cols.map lowerStr = l1 ++ c :: l2 ∧
        (∀ x ∈ l1,
          (isSubstring ("tick".toList) x || isSubstring ("sym".toList) x) = false) ∧
        load_spot_core df =
          .ok ⟨l1 ++ ("ticker".toList) :: l2, df.rows.map (fun row =>
            row.set l1.length (normalizeTicker (row.getD l1.length [])))⟩) ∧
    load_spot_core ⟨["Sym.".toList, "Price".toList], [["btc-usd".toList, "5".toList]]⟩ =
      .ok ⟨["ticker".toList, "price".toList], [["BTCUSD".toList, "5".toList]]⟩ := by
  constructor
  · intro df c hno hfind hcount
    obtain ⟨l1, l2, hdecomp, hl1, hpc⟩ := find?_decomp hfind
    have hcl1 : c ∉ l1 := by
      intro hm
      rw [hl1 c hm] at hpc
      exact Bool.noConfusion hpc
    have hcl2 : c ∉ l2 := by
      rw [hdecomp] at hcount
      simp [List.count_append, List.count_cons] at hcount
      exact List.count_eq_zero.1 (by omega)
    have htk_l1 : "ticker".toList ∉ l1 := by
      intro hm
      exact hno (hdecomp ▸ List.mem_append_left _ hm)
    have hren1 : l1.map (fun x => if x = c then "ticker".toList else x) = l1 := by
      rw [List.map_congr_left (fun x hx => if_neg (fun (he : x = c) => hcl1 (he ▸ hx)))]
      exact List.map_id' l1
    have hren2 : l2.map (fun x => if x = c then "ticker".toList else x) = l2 := by
      rw [List.map_congr_left (fun x hx => if_neg (fun (he : x = c) => hcl2 (he ▸ hx)))]
      exact List.map_id' l2
    have hrencols :
        (df.cols.map lowerStr).map (fun x => if x = c then "ticker".toList else x) =
          l1 ++ ("ticker".toList) :: l2 := by
      rw [hdecomp, List.map_append, List.map_cons, if_pos rfl, hren1, hren2]
    have hmem : "ticker".toList ∈ l1 ++ ("ticker".toList) :: l2 :=
      List.mem_append_right _ (List.mem_cons_self _ _)
    have hidx :
        List.findIdx? (fun x => x = "ticker".toList) (l1 ++ ("ticker".toList) :: l2) =
          some l1.length := by
      have hstep := findIdx?_prefix (p := fun x => x = "ticker".toList)
        l1 ("ticker".toList) l2 0
        (fun x hx => by
          simp only [decide_eq_false_iff_not]
          exact fun (he : x = "ticker".toList) => htk_l1 (he ▸ hx))
        (by simp)
      simpa using hstep
    have hc2 : renameTickCol (df.cols.map lowerStr) = l1 ++ ("ticker".toList) :: l2 := by
      rw [renameTickCol, if_neg hno, hfind]
      exact hrencols
    have hkey : DF.keyIdx ⟨l1 ++ ("ticker".toList) :: l2, df.rows⟩ ("ticker".toList) =
        l1.length := by
      rw [DF.keyIdx]
      show (List.findIdx? (fun x => x = "ticker".toList)
        (l1 ++ ("ticker".toList) :: l2)).getD 0 = l1.length
      rw [hidx]
      rfl
    have htk_l2 : "ticker".toList ∉ l2 := by
      intro hm
      exact hno (hdecomp ▸ List.mem_append_right _ (List.mem_cons_of_mem _ hm))
    have hcount1 : (l1 ++ ("ticker".toList) :: l2).count ("ticker".toList) = 1 := by
      rw [List.count_append, List.count_cons]
      rw [List.count_eq_zero.2 htk_l1, List.count_eq_zero.2 htk_l2]
      simp
    have hres : load_spot_core df =
        .ok ⟨l1 ++ ("ticker".toList) :: l2, df.rows.map (fun row =>
          row.set l1.length (normalizeTicker (row.getD l1.length [])))⟩ := by
      rw [load_spot_core, hc2, setTickerCol, if_pos hmem, if_pos hcount1, hkey]
    exact ⟨l1, l2, hdecomp, hl1, hres⟩
  · decide

/-- Witness for C9 at the concrete `"Sym."` frame. -/
theorem C9_ticker_column_inference_witness :
    ∃ l1 l2,
      ((⟨["Sym.".toList, "Price".toList], [["btc-usd".toList, "5".toList]]⟩ : DF).cols.map
        lowerStr) = l1 ++ ("sym.".toList) :: l2 ∧
      (∀ x ∈ l1,
        (isSubstring ("tick".toList) x || isSubstring ("sym".toList) x) = false) ∧
      load_spot_core
        ⟨["Sym.".toList, "Price".toList], [["btc-usd".toList, "5".toList]]⟩ =
        .ok ⟨l1 ++ ("ticker".toList) :: l2,
          (⟨["Sym.".toList, "Price".toList],
            [["btc-usd".toList, "5".toList]]⟩ : DF).rows.map (fun row =>
              row.set l1.length (normalizeTicker (row.getD l1.length [])))⟩ :=
  C9_ticker_column_inference.1
    ⟨["Sym.".toList, "Price".toList], [["btc-usd".toList, "5".toList]]⟩
    ("sym.".toList) (by decide) (by decide) (by decide)

end CryptoVAT
